import Mathlib

/-!
Verification of the banking-user-service core against its specification.

Embedded components:
* the field-encryption envelope (`internal/crypto/encryption.go`):
  `Encrypt`, `Decrypt`, `NeedsReEncryption`, `AddKey`, `SetCurrentVersion`,
  `NewFieldEncryptor`;
* the key manager (`internal/crypto/keymanager.go`): `RotateKey`, `Stop`;
* the resilience layer (`internal/resilience/fallback.go`): `EventBuffer.Add`,
  `EventBuffer.Flush`; and the circuit-breaker wrapper around sony/gobreaker.

Modelling conventions: Go strings are `List Char` (the claim-relevant byte/char
divergences cancel out because every decision point only accepts ASCII), Go
`[]byte` is `List Nat` with entries `< 256`, Go `int` is `Int` with the 64-bit
range made explicit exactly where `strconv` enforces it.  The AES-GCM AEAD from
Go's standard library is a parameter (`AEAD`) constrained by its documented
contract; the envelope logic itself is translated line by line from the source.
-/

/-! ## Base64 (Go `encoding/base64` StdEncoding, as called by the crypto code) -/

/-- The standard base64 alphabet used by Go's `base64.StdEncoding`:
index `0..63` to character. -/
def b64Char (n : Nat) : Char :=
  if n < 26 then Char.ofNat (65 + n)
  else if n < 52 then Char.ofNat (97 + (n - 26))
  else if n < 62 then Char.ofNat (48 + (n - 52))
  else if n = 62 then '+'
  else '/'

/-- Inverse alphabet lookup: the 6-bit value of a base64 character, `none` for
characters outside the standard alphabet (including `=`). -/
def b64Index (c : Char) : Option Nat :=
  let t := c.toNat
  if 65 ≤ t ∧ t ≤ 90 then some (t - 65)
  else if 97 ≤ t ∧ t ≤ 122 then some (26 + (t - 97))
  else if 48 ≤ t ∧ t ≤ 57 then some (52 + (t - 48))
  else if c = '+' then some 62
  else if c = '/' then some 63
  else none

/-- Alphabet facts: `b64Index` inverts `b64Char` on `0..63`, and no alphabet
character is `=`, `:`, CR or LF. -/
theorem b64Char_facts : ∀ n : Nat, n < 64 →
    b64Index (b64Char n) = some n ∧ b64Char n ≠ '=' ∧ b64Char n ≠ ':' ∧
      b64Char n ≠ '\r' ∧ b64Char n ≠ '\n' := by decide

/-- Base64 encoding of a byte sequence (Go `base64.StdEncoding.EncodeToString`):
3-byte groups to 4 characters, with `=` padding for 1- or 2-byte remainders. -/
def encodeB64 : List Nat → List Char
  | [] => []
  | [a] => [b64Char (a / 4), b64Char (a % 4 * 16), '=', '=']
  | [a, b] => [b64Char (a / 4), b64Char (a % 4 * 16 + b / 16),
               b64Char (b % 16 * 4), '=']
  | a :: b :: c :: rest =>
      b64Char (a / 4) :: b64Char (a % 4 * 16 + b / 16) ::
        b64Char (b % 16 * 4 + c / 64) :: b64Char (c % 64) :: encodeB64 rest

/-- Base64 decoding of a CR/LF-free character sequence in 4-character groups
(Go `base64.StdEncoding.Decode` after newline stripping): rejects any
non-alphabet character, a length not a multiple of 4, misplaced padding, or a
padded group that is not final. -/
def decodeGroups : List Char → Option (List Nat)
  | [] => some []
  | c0 :: c1 :: c2 :: c3 :: rest =>
      match b64Index c0, b64Index c1 with
      | some i0, some i1 =>
        if c2 = '=' then
          if c3 = '=' ∧ rest = [] then some [i0 * 4 + i1 / 16] else none
        else
          match b64Index c2 with
          | some i2 =>
            if c3 = '=' then
              if rest = [] then some [i0 * 4 + i1 / 16, i1 % 16 * 16 + i2 / 4]
              else none
            else
              match b64Index c3 with
              | some i3 =>
                (decodeGroups rest).map
                  (fun tl => (i0 * 4 + i1 / 16) :: (i1 % 16 * 16 + i2 / 4) ::
                    (i2 % 4 * 64 + i3) :: tl)
              | none => none
          | none => none
      | _, _ => none
  | _ => none

/-- Go's `base64.StdEncoding.DecodeString`: CR and LF are ignored, everything
else is decoded in 4-character groups. -/
def goB64Decode (s : List Char) : Option (List Nat) :=
  decodeGroups (s.filter fun c => !(c == '\r' || c == '\n'))

/-- Every character emitted by the base64 encoder (on actual bytes) is `=` or
an alphabet character. -/
theorem encodeB64_chars : ∀ (bs : List Nat), (∀ b ∈ bs, b < 256) →
    ∀ c ∈ encodeB64 bs, c = '=' ∨ ∃ n, n < 64 ∧ c = b64Char n
  | [] => by simp [encodeB64]
  | [a] => by
      intro hb c hc
      have ha : a < 256 := hb a (by simp)
      simp only [encodeB64, List.mem_cons, List.not_mem_nil, or_false] at hc
      rcases hc with h | h | h | h
      · exact Or.inr ⟨a / 4, by omega, h⟩
      · exact Or.inr ⟨a % 4 * 16, by omega, h⟩
      · exact Or.inl h
      · exact Or.inl h
  | [a, b] => by
      intro hb c hc
      have ha : a < 256 := hb a (by simp)
      have hbb : b < 256 := hb b (by simp)
      simp only [encodeB64, List.mem_cons, List.not_mem_nil, or_false] at hc
      rcases hc with h | h | h | h
      · exact Or.inr ⟨a / 4, by omega, h⟩
      · exact Or.inr ⟨a % 4 * 16 + b / 16, by omega, h⟩
      · exact Or.inr ⟨b % 16 * 4, by omega, h⟩
      · exact Or.inl h
  | a :: b :: c' :: rest => by
      intro hb c hc
      have ha : a < 256 := hb a (by simp)
      have hbb : b < 256 := hb b (by simp)
      have hcc : c' < 256 := hb c' (by simp)
      simp only [encodeB64, List.mem_cons] at hc
      rcases hc with h | h | h | h | h
      · exact Or.inr ⟨a / 4, by omega, h⟩
      · exact Or.inr ⟨a % 4 * 16 + b / 16, by omega, h⟩
      · exact Or.inr ⟨b % 16 * 4 + c' / 64, by omega, h⟩
      · exact Or.inr ⟨c' % 64, by omega, h⟩
      · exact encodeB64_chars rest (fun x hx => hb x (by simp [hx])) c h

/-- No character of a base64 encoding is a colon, CR or LF. -/
theorem encodeB64_no_colon_crlf (bs : List Nat) (hb : ∀ b ∈ bs, b < 256) :
    ∀ c ∈ encodeB64 bs, c ≠ ':' ∧ c ≠ '\r' ∧ c ≠ '\n' := by
  intro c hc
  rcases encodeB64_chars bs hb c hc with h | ⟨n, hn, h⟩
  · subst h; refine ⟨by decide, by decide, by decide⟩
  · subst h
    obtain ⟨-, -, h1, h2, h3⟩ := b64Char_facts n hn
    exact ⟨h1, h2, h3⟩

/-- Decoding the 4-character groups of an encoding recovers the bytes. -/
theorem decodeGroups_encodeB64 : ∀ (bs : List Nat), (∀ b ∈ bs, b < 256) →
    decodeGroups (encodeB64 bs) = some bs
  | [] => fun _ => by simp [encodeB64, decodeGroups]
  | [a] => fun hb => by
      have ha : a < 256 := hb a (by simp)
      have h0 := (b64Char_facts (a / 4) (by omega)).1
      have h1 := (b64Char_facts (a % 4 * 16) (by omega)).1
      simp only [encodeB64, decodeGroups, h0, h1]
      simp
      omega
  | [a, b] => fun hb => by
      have ha : a < 256 := hb a (by simp)
      have hbb : b < 256 := hb b (by simp)
      have h0 := (b64Char_facts (a / 4) (by omega)).1
      have h1 := (b64Char_facts (a % 4 * 16 + b / 16) (by omega)).1
      have h2 := (b64Char_facts (b % 16 * 4) (by omega)).1
      have hne := (b64Char_facts (b % 16 * 4) (by omega)).2.1
      simp only [encodeB64, decodeGroups, h0, h1, h2, hne, if_false, if_pos rfl]
      simp
      constructor
      · omega
      · omega
  | a :: b :: c :: rest => fun hb => by
      have ha : a < 256 := hb a (by simp)
      have hbb : b < 256 := hb b (by simp)
      have hc : c < 256 := hb c (by simp)
      have h0 := (b64Char_facts (a / 4) (by omega)).1
      have h1 := (b64Char_facts (a % 4 * 16 + b / 16) (by omega)).1
      have h2 := (b64Char_facts (b % 16 * 4 + c / 64) (by omega)).1
      have h3 := (b64Char_facts (c % 64) (by omega)).1
      have hne2 := (b64Char_facts (b % 16 * 4 + c / 64) (by omega)).2.1
      have hne3 := (b64Char_facts (c % 64) (by omega)).2.1
      have ih := decodeGroups_encodeB64 rest (fun x hx => hb x (by simp [hx]))
      simp only [encodeB64, decodeGroups, h0, h1, h2, h3, hne2, hne3, if_false,
        ih, Option.map_some]
      have e1 : a / 4 * 4 + (a % 4 * 16 + b / 16) / 16 = a := by omega
      have e2 : (a % 4 * 16 + b / 16) % 16 * 16 + (b % 16 * 4 + c / 64) / 4 = b := by
        omega
      have e3 : (b % 16 * 4 + c / 64) % 4 * 64 + c % 64 = c := by omega
      simp [e1, e2, e3]

/-- Full base64 round trip: Go's `DecodeString` inverts `EncodeToString`. -/
theorem goB64Decode_encodeB64 (bs : List Nat) (hb : ∀ b ∈ bs, b < 256) :
    goB64Decode (encodeB64 bs) = some bs := by
  unfold goB64Decode
  have hf : (encodeB64 bs).filter (fun c => !(c == '\r' || c == '\n'))
      = encodeB64 bs := by
    rw [List.filter_eq_self]
    intro c hc
    obtain ⟨-, h2, h3⟩ := encodeB64_no_colon_crlf bs hb c hc
    simp [h2, h3]
  rw [hf]
  exact decodeGroups_encodeB64 bs hb

/-! ## Go `strings.SplitN(s, ":", 3)` -/

/-- Split a character list at the first colon: the part before it and, when a
colon exists, the remainder after it. -/
def breakColon : List Char → List Char × Option (List Char)
  | [] => ([], none)
  | c :: rest =>
      if c = ':' then ([], some rest)
      else
        let (a, r) := breakColon rest
        (c :: a, r)

/-- Go `strings.SplitN(s, ":", 3)`: at most three parts; the third part keeps
any further colons. `SplitN("", ":", 3) = [""]`. -/
def splitN3 (s : List Char) : List (List Char) :=
  match breakColon s with
  | (a, none) => [a]
  | (a, some r1) =>
    match breakColon r1 with
    | (b, none) => [a, b]
    | (b, some r2) => [a, b, r2]

/-- A colon-free list is returned whole by `breakColon`. -/
theorem breakColon_of_no_colon : ∀ (a : List Char), ':' ∉ a →
    breakColon a = (a, none)
  | [] => fun _ => rfl
  | c :: rest => fun h => by
      simp only [List.mem_cons, not_or] at h
      have hc : ¬c = ':' := fun e => h.1 e.symm
      have ih := breakColon_of_no_colon rest h.2
      simp [breakColon, hc, ih]

/-- With a colon-free prefix, `breakColon` cuts exactly at the first colon. -/
theorem breakColon_append : ∀ (a r : List Char), ':' ∉ a →
    breakColon (a ++ ':' :: r) = (a, some r)
  | [], r => fun _ => by simp [breakColon]
  | c :: rest, r => fun h => by
      simp only [List.mem_cons, not_or] at h
      have hc : ¬c = ':' := fun e => h.1 e.symm
      have ih := breakColon_append rest r h.2
      simp [breakColon, hc, ih]

/-- `SplitN` of a three-part colon envelope returns exactly the three parts
when the first two are colon-free. -/
theorem splitN3_parts (a b c : List Char) (ha : ':' ∉ a) (hb : ':' ∉ b) :
    splitN3 (a ++ (':' :: (b ++ (':' :: c)))) = [a, b, c] := by
  unfold splitN3
  simp [breakColon_append a _ ha, breakColon_append b c hb]

/-! ## Go `strconv.Atoi` and `fmt.Sprintf("%d", ·)` (64-bit `int`) -/

/-- Decimal digit value of a character, `none` for non-digits. -/
def digToNat (c : Char) : Option Nat :=
  if 48 ≤ c.toNat ∧ c.toNat ≤ 57 then some (c.toNat - 48) else none

/-- The digit-accumulation loop of `strconv`: left-to-right base-10, failing on
the first non-digit. -/
def parseNatGo : Nat → List Char → Option Nat
  | acc, [] => some acc
  | acc, c :: rest =>
      match digToNat c with
      | none => none
      | some d => parseNatGo (acc * 10 + d) rest

/-- Digit-string to value; the empty string is an error. -/
def parseDigits : List Char → Option Nat
  | [] => none
  | c :: rest => parseNatGo 0 (c :: rest)

/-- Go `strconv.Atoi` on a 64-bit platform: optional single `+`/`-` sign, then
one or more decimal digits; a value outside the `int64` range is an error
(`ErrRange`) to the caller. -/
def goAtoi (s : List Char) : Option Int :=
  match s with
  | [] => none
  | c :: rest =>
      if c = '+' then
        (parseDigits rest).bind fun n =>
          if n ≤ 2 ^ 63 - 1 then some (n : Int) else none
      else if c = '-' then
        (parseDigits rest).bind fun n =>
          if n ≤ 2 ^ 63 then some (-(n : Int)) else none
      else
        (parseDigits (c :: rest)).bind fun n =>
          if n ≤ 2 ^ 63 - 1 then some (n : Int) else none

/-- Little-endian decimal digits of a natural number. -/
def natDigitsRev (n : Nat) : List Char :=
  if n < 10 then [Char.ofNat (48 + n)]
  else Char.ofNat (48 + n % 10) :: natDigitsRev (n / 10)
termination_by n
decreasing_by omega

/-- Decimal rendering of a natural number, as Go's `%d` prints it. -/
def itoaNat (n : Nat) : List Char := (natDigitsRev n).reverse

/-- Go `fmt.Sprintf("%d", v)` for an integer: minus sign then decimal digits. -/
def goItoa (v : Int) : List Char :=
  if v < 0 then '-' :: itoaNat (-v).toNat else itoaNat v.toNat

/-- Digit-character facts: `digToNat` inverts the digit table, and no digit
character is a colon or a sign. -/
theorem digitChar_facts : ∀ d : Nat, d < 10 →
    digToNat (Char.ofNat (48 + d)) = some d ∧ Char.ofNat (48 + d) ≠ ':' ∧
      Char.ofNat (48 + d) ≠ '+' ∧ Char.ofNat (48 + d) ≠ '-' := by decide

/-- Every character of `natDigitsRev` is a decimal digit character. -/
theorem natDigitsRev_chars (n : Nat) :
    ∀ c ∈ natDigitsRev n, ∃ d, d < 10 ∧ c = Char.ofNat (48 + d) := by
  rw [natDigitsRev]
  by_cases h : n < 10
  · simp only [if_pos h, List.mem_singleton]
    exact fun c hc => ⟨n, h, hc⟩
  · simp only [if_neg h, List.mem_cons]
    intro c hc
    rcases hc with hc | hc
    · exact ⟨n % 10, by omega, hc⟩
    · exact natDigitsRev_chars (n / 10) c hc
termination_by n
decreasing_by omega

/-- The decimal rendering is never empty. -/
theorem itoaNat_ne_nil (n : Nat) : itoaNat n ≠ [] := by
  unfold itoaNat
  rw [natDigitsRev]
  by_cases h : n < 10 <;> simp [h]

/-- Accumulator step for parsing one appended digit character. -/
theorem parseNatGo_snoc : ∀ (xs : List Char) (acc : Nat) (c : Char),
    parseNatGo acc (xs ++ [c]) =
      match parseNatGo acc xs with
      | none => none
      | some m =>
        match digToNat c with
        | none => none
        | some d => some (m * 10 + d)
  | [], acc, c => by
      cases hdc : digToNat c <;> simp [parseNatGo, hdc]
  | x :: xs, acc, c => by
      simp only [List.cons_append, parseNatGo]
      cases hdx : digToNat x <;> simp [parseNatGo_snoc xs]

/-- Parsing the decimal rendering of `n` recovers `n`. -/
theorem parseNatGo_itoaNat (n : Nat) : parseNatGo 0 (itoaNat n) = some n := by
  by_cases h : n < 10
  · unfold itoaNat
    rw [natDigitsRev, if_pos h]
    simp [parseNatGo, (digitChar_facts n h).1]
  · have ih := parseNatGo_itoaNat (n / 10)
    have hsplit : itoaNat n = itoaNat (n / 10) ++ [Char.ofNat (48 + n % 10)] := by
      unfold itoaNat
      rw [natDigitsRev, if_neg h]
      simp
    rw [hsplit, parseNatGo_snoc, ih, (digitChar_facts (n % 10) (by omega)).1]
    simp
    omega
termination_by n
decreasing_by omega

/-- `parseDigits` on the (non-empty) decimal rendering of `n` gives `n`. -/
theorem parseDigits_itoaNat (n : Nat) : parseDigits (itoaNat n) = some n := by
  have hne := itoaNat_ne_nil n
  cases hE : itoaNat n with
  | nil => exact absurd hE hne
  | cons c rest =>
      have := parseNatGo_itoaNat n
      rw [hE] at this
      simpa [parseDigits] using this

/-- Round trip: `Atoi` inverts `%d` rendering for every in-range 64-bit int. -/
theorem goAtoi_goItoa (v : Int) (h1 : -(2 ^ 63) ≤ v) (h2 : v < 2 ^ 63) :
    goAtoi (goItoa v) = some v := by
  by_cases hv : v < 0
  · have hgi : goItoa v = '-' :: itoaNat (-v).toNat := by simp [goItoa, hv]
    rw [hgi]
    have hPD := parseDigits_itoaNat (-v).toNat
    have hrange : (-v).toNat ≤ 2 ^ 63 := by omega
    have hpm : ¬('-' : Char) = '+' := by decide
    simp [goAtoi, hpm, hPD, hrange]
    omega
  · have hgi : goItoa v = itoaNat v.toNat := by simp [goItoa, hv]
    rw [hgi]
    have hne := itoaNat_ne_nil v.toNat
    cases hE : itoaNat v.toNat with
    | nil => exact absurd hE hne
    | cons c rest =>
        have hcmem : c ∈ natDigitsRev v.toNat := by
          have h' : c ∈ itoaNat v.toNat := by rw [hE]; simp
          simpa [itoaNat] using h'
        obtain ⟨d, hd, hcd⟩ := natDigitsRev_chars v.toNat c hcmem
        obtain ⟨-, -, hplus, hminus⟩ := digitChar_facts d hd
        have hp : ¬c = '+' := by rw [hcd]; exact hplus
        have hm : ¬c = '-' := by rw [hcd]; exact hminus
        have hPD : parseDigits (c :: rest) = some v.toNat := by
          rw [← hE]; exact parseDigits_itoaNat v.toNat
        have hrange : v.toNat ≤ 2 ^ 63 - 1 := by omega
        simp [goAtoi, hp, hm, hPD, hrange]
        omega

/-- The rendered integer contains no colon. -/
theorem goItoa_no_colon (v : Int) : ':' ∉ goItoa v := by
  have hnat : ∀ n : Nat, ':' ∉ itoaNat n := by
    intro n hmem
    have : ':' ∈ natDigitsRev n := by simpa [itoaNat] using hmem
    obtain ⟨d, hd, hcd⟩ := natDigitsRev_chars n ':' this
    exact (digitChar_facts d hd).2.1 hcd.symm
  unfold goItoa
  by_cases hv : v < 0
  · simp only [if_pos hv, List.mem_cons, not_or]
    exact ⟨by decide, hnat _⟩
  · simp only [if_neg hv]
    exact hnat _

/-! ## AES-256-GCM as used through Go's `crypto/aes` + `crypto/cipher`

The repository calls the standard library's AEAD.  The AEAD itself is a
parameter here; its documented contract (`Open` inverts `Seal` for the same
key and nonce, and produces bytes) is an explicit hypothesis of the round-trip
claims.  The stdlib behaviours that the envelope code depends on are embedded
directly: `aes.NewCipher` fails unless the key is 16/24/32 bytes long, and
`gcm.Open`/`gcm.Seal` panic when the nonce is not exactly 12 bytes long. -/

/-- An authenticated cipher: `seal key nonce plaintext` and
`unseal key nonce ciphertext` (which may reject). -/
structure AEAD where
  sealOp : List Nat → List Nat → List Nat → List Nat
  openOp : List Nat → List Nat → List Nat → Option (List Nat)

/-- The AEAD contract Go's GCM documents: decrypting a sealed message with the
same key and nonce returns the plaintext. -/
def AEADCorrect (a : AEAD) : Prop :=
  ∀ k n p, a.openOp k n (a.sealOp k n p) = some p

/-- The sealed message is a byte string whenever the plaintext is. -/
def AEADBytes (a : AEAD) : Prop :=
  ∀ k n p, (∀ b ∈ p, b < 256) → ∀ b ∈ a.sealOp k n p, b < 256

/-- GCM's nonce size for AES: 12 bytes. -/
def gcmNonceSize : Nat := 12

/-- Key lengths accepted by `aes.NewCipher`. -/
def aesKeyLenOK (k : List Nat) : Bool :=
  k.length = 16 || k.length = 24 || k.length = 32

/-! ## FieldEncryptor (`internal/crypto/encryption.go`) -/

/-- The decrypt error kinds of `encryption.go` that `Decrypt` can return:
`ErrInvalidCiphertext`, `ErrKeyNotFound`, `ErrDecryptionFailed`. -/
inductive DecErr where
  | invalidCiphertext
  | keyNotFound
  | decryptionFailed
deriving DecidableEq, Repr

/-- Outcome of `FieldEncryptor.Decrypt`: plaintext with the key version used,
an error, or a runtime panic (from the Go standard library). -/
inductive DecResult where
  | ok (pt : List Nat) (version : Int)
  | err (e : DecErr)
  | panicked
deriving DecidableEq, Repr

/-- `FieldEncryptor`: versioned key map and current version
(the HMAC secret plays no role in the claims under verification and is
omitted). -/
structure FE where
  keys : Int → Option (List Nat)
  currentVersion : Int

/-- `FieldEncryptor.Encrypt` with the freshly generated random `nonce` passed
explicitly (the source draws `gcm.NonceSize()` = 12 bytes from `rand.Reader`).
Returns the envelope `v{version}:{nonce_b64}:{ct_b64}`, or `none` for the
`ErrEncryptionFailed` cases (`aes.NewCipher` rejecting the looked-up key;
a missing current key gives the nil slice, which `NewCipher` rejects). -/
def feEncrypt (a : AEAD) (e : FE) (nonce : List Nat) (plaintext : List Nat) :
    Option (List Char) :=
  let key := e.keys e.currentVersion
  let version := e.currentVersion
  match key with
  | none => none
  | some k =>
      if aesKeyLenOK k then
        some ('v' :: (goItoa version ++
          (':' :: (encodeB64 nonce ++ (':' :: encodeB64 (a.sealOp k nonce plaintext))))))
      else none

/-- `FieldEncryptor.Decrypt`, translated clause by clause from the source:
split into at most three colon parts; check the `v` prefix; `Atoi` the
version; base64-decode nonce and ciphertext; look the key up by version;
build the cipher (`aes.NewCipher` rejects wrong key sizes); then `gcm.Open` —
which, per Go's `crypto/cipher`, panics if the nonce length is not
`gcm.NonceSize()` = 12, and otherwise rejects on authentication failure. -/
def feDecrypt (a : AEAD) (e : FE) (encrypted : List Char) : DecResult :=
  match splitN3 encrypted with
  | [p0, p1, p2] =>
      if p0.head? = some 'v' then
        match goAtoi (p0.drop 1) with
        | none => .err .invalidCiphertext
        | some version =>
            match goB64Decode p1 with
            | none => .err .invalidCiphertext
            | some nonce =>
                match goB64Decode p2 with
                | none => .err .invalidCiphertext
                | some ciphertext =>
                    match e.keys version with
                    | none => .err .keyNotFound
                    | some key =>
                        if aesKeyLenOK key then
                          if nonce.length = gcmNonceSize then
                            match a.openOp key nonce ciphertext with
                            | some plaintext => .ok plaintext version
                            | none => .err .decryptionFailed
                          else .panicked
                        else .err .decryptionFailed
      else .err .invalidCiphertext
  | _ => .err .invalidCiphertext

/-- `FieldEncryptor.NeedsReEncryption`: malformed envelopes and unparseable
versions report `true`; otherwise `true` exactly when the embedded version is
strictly older than the current one. -/
def feNeedsReEncryption (e : FE) (encrypted : List Char) : Bool :=
  match splitN3 encrypted with
  | [p0, _, _] =>
      if p0.head? = some 'v' then
        match goAtoi (p0.drop 1) with
        | none => true
        | some version => version < e.currentVersion
      else true
  | _ => true

/-- `FieldEncryptor.AddKey`: decode the base64 key, require exactly 32 bytes,
then store it under `version`.  Returns the post-state and whether the call
succeeded (`false` = the Go method returned an error before mutating). -/
def feAddKey (e : FE) (version : Int) (keyBase64 : List Char) : FE × Bool :=
  match goB64Decode keyBase64 with
  | none => (e, false)
  | some key =>
      if key.length ≠ 32 then (e, false)
      else ({ e with keys := fun v => if v = version then some key else e.keys v },
            true)

/-- `FieldEncryptor.SetCurrentVersion`: fails (`ErrKeyNotFound`) if no key is
stored at `version`, otherwise makes it current. -/
def feSetCurrentVersion (e : FE) (version : Int) : FE × Bool :=
  match e.keys version with
  | none => (e, false)
  | some _ => ({ e with currentVersion := version }, true)

/-- The decode-and-validate loop of `NewFieldEncryptor`: each key must be
valid base64 and exactly 32 bytes. -/
def decodeKeys : List (List Char) → Option (List (List Nat))
  | [] => some []
  | k :: rest =>
      match goB64Decode k with
      | none => none
      | some key =>
          if key.length ≠ 32 then none
          else (decodeKeys rest).map (key :: ·)

/-- The 1-indexed version map built by `NewFieldEncryptor` (`keys[i+1] = key`). -/
def keysOfList (ks : List (List Nat)) : Int → Option (List Nat) :=
  fun v => if 1 ≤ v ∧ v ≤ ks.length then ks[(v - 1).toNat]? else none

/-- `NewFieldEncryptor`: requires at least one key, all keys valid base64 of
32 bytes, and the current version present in the resulting map. -/
def newFieldEncryptor (keysBase64 : List (List Char)) (currentVersion : Int) :
    Option FE :=
  if keysBase64.isEmpty then none
  else
    match decodeKeys keysBase64 with
    | none => none
    | some ks =>
        match keysOfList ks currentVersion with
        | none => none
        | some _ => some ⟨keysOfList ks, currentVersion⟩

/-! ## KeyManager (`internal/crypto/keymanager.go`) -/

/-- `KeyManager.RotateKey` on an initialized manager: add the new key at
`current+1` via `AddKey`, then promote it via `SetCurrentVersion`.  Returns
the post-state of the wrapped encryptor and whether rotation succeeded. -/
def kmRotateKey (e : FE) (newKeyBase64 : List Char) : FE × Bool :=
  let newVersion := e.currentVersion + 1
  let (e1, ok1) := feAddKey e newVersion newKeyBase64
  if ok1 then
    let (e2, ok2) := feSetCurrentVersion e1 newVersion
    if ok2 then (e2, true) else (e2, false)
  else (e1, false)

/-- Go channel close (the Go language specification: closing an
already-closed channel panics).  The state is whether the channel is already
closed; `none` models the panic. -/
def closeChannel (alreadyClosed : Bool) : Option Bool :=
  if alreadyClosed then none else some true

/-- `KeyManager.Stop`, whose whole body is `close(km.stopCh)`: given whether
`stopCh` is already closed, returns the new closed-state or panics (`none`). -/
def kmStop (stopChClosed : Bool) : Option Bool :=
  closeChannel stopChClosed

/-! ## EventBuffer (`internal/resilience/fallback.go`) -/

/-- A buffered event: the identifier and retry counter, which are the fields
`Add`/`Flush` inspect or mutate; the serialized payload is carried opaquely. -/
structure BufEvent where
  id : String
  retries : Nat
  payload : String
deriving DecidableEq, Repr

/-- `EventBuffer.Add`.  `persist` is the injected persistence function:
`none` when `b.persist` is nil, `some p` where `p evs = true` means the call
`b.persist(ctx, evs)` returned a nil error.  As in the source, at capacity it
is invoked on `events` — the entire current buffer contents (`b.events`) —
and only a nil error clears the in-memory buffer.  Returns the new buffer
contents and whether the event was added (`false` = `ErrBufferFull`). -/
def bufAdd (events : List BufEvent) (maxSize : Nat)
    (persist : Option (List BufEvent → Bool)) (event : BufEvent) :
    List BufEvent × Bool :=
  if events.length ≥ maxSize then
    let events1 :=
      match persist with
      | some p => if p events then [] else events
      | none => events       -- nil persist function: nothing to call
    if events1.length ≥ maxSize then (events1, false)
    else (events1 ++ [event], true)
  else (events ++ [event], true)

/-- The delivery loop of `EventBuffer.Flush` over the copied snapshot: each
event is handed to the injected flush function (`deliver`); on failure the
snapshot copy's retry counter is incremented, on success the `flushed` counter
is.  Returns (mutated snapshot, flushed count, whether any delivery failed). -/
def flushPass (deliver : BufEvent → Bool) :
    List BufEvent → List BufEvent × Nat × Bool
  | [] => ([], 0, false)
  | e :: rest =>
      let (ms, f, er) := flushPass deliver rest
      if deliver e then (e :: ms, f + 1, er)
      else ({ e with retries := e.retries + 1 } :: ms, f, true)

/-- `EventBuffer.Flush` (with a flush function set): run the delivery loop on
a snapshot, then rebuild the buffer keeping exactly the events whose id does
not appear among the first `flushed` entries of the snapshot — this is the
source's removal loop, verbatim.  Returns the new buffer contents, the
flushed count, and whether an aggregated error is returned. -/
def bufFlush (events : List BufEvent) (deliver : BufEvent → Bool) :
    List BufEvent × Nat × Bool :=
  let (snapshot, flushed, hadErr) := flushPass deliver events
  let remaining :=
    events.filter fun e => !((snapshot.take flushed).any fun f => f.id == e.id)
  (remaining, flushed, hadErr)

/-! ## CircuitBreaker (`NewCircuitBreaker` / `Execute` wrapping sony/gobreaker)

The wrapper's own logic (the `ReadyToTrip` closure built from
`CircuitBreakerSettings`, and `Execute` translating `gobreaker.ErrOpenState`
into `ErrCircuitOpen`) is in the repository.  The state machine those hooks
plug into is the sony/gobreaker dependency, embedded here for the claim's
scope — a closed breaker inside one rolling interval and an open breaker
before its timeout: `beforeRequest` increments the request count and
short-circuits with `ErrOpenState` when open (the wrapped function is never
invoked); `afterRequest` on failure increments the failure count and consults
`ReadyToTrip`, transitioning to open when it returns true; on success it only
updates counts. -/

/-- The rolling counts the trip decision reads (gobreaker `Counts`). -/
structure CBCounts where
  requests : Nat
  totalFailures : Nat
deriving DecidableEq, Repr

/-- Breaker state: closed with its rolling counts, or open. -/
inductive CBState where
  | closed (counts : CBCounts)
  | opened
deriving DecidableEq, Repr

/-- The `ReadyToTrip` closure of `NewCircuitBreaker`: below `MinRequests`
never trip; otherwise trip when `TotalFailures/Requests ≥ FailureRatio`.
The Go source computes the ratio in `float64`; for counts below `2^53` the
correctly-rounded division compares to the (exactly representable) threshold
`0.5` precisely as the exact rational does, so the ratio is taken in `ℚ`. -/
def readyToTrip (minRequests : Nat) (failureRatio : ℚ) (c : CBCounts) : Bool :=
  if c.requests < minRequests then false
  else decide ((c.totalFailures : ℚ) / (c.requests : ℚ) ≥ failureRatio)

/-- Outcome of one `Execute` call: short-circuited with `ErrCircuitOpen`
(the wrapped function was not invoked), or the function ran and
failed/succeeded. -/
inductive CBOutcome where
  | circuitOpen
  | ran (failed : Bool)
deriving DecidableEq, Repr

/-- One `Execute` call through the breaker: `fnFails` is the result the
wrapped function would produce if invoked.  Open: return `ErrCircuitOpen`
without invoking it.  Closed: count the request, run the function, and on
failure count it and trip when `ReadyToTrip` fires. -/
def cbExecute (minRequests : Nat) (failureRatio : ℚ) (st : CBState)
    (fnFails : Bool) : CBState × CBOutcome :=
  match st with
  | .opened => (.opened, .circuitOpen)
  | .closed c =>
      let c1 : CBCounts := { requests := c.requests + 1,
                             totalFailures := c.totalFailures }
      if fnFails then
        let c2 : CBCounts := { c1 with totalFailures := c1.totalFailures + 1 }
        if readyToTrip minRequests failureRatio c2 then (.opened, .ran true)
        else (.closed c2, .ran true)
      else (.closed c1, .ran false)

/-- A sequence of `Execute` calls from a state, keeping only the state. -/
def cbRun (minRequests : Nat) (failureRatio : ℚ) (st : CBState)
    (results : List Bool) : CBState :=
  results.foldl (fun s r => (cbExecute minRequests failureRatio s r).1) st

/-! ## Concrete instances used to exercise the model at specific inputs -/

/-- A concrete AEAD satisfying the GCM contract, used to run the envelope
logic on concrete inputs: sealing appends a zero tag byte; opening rejects an
empty ciphertext and strips the tag. -/
def demoAEAD : AEAD where
  sealOp := fun _ _ p => p ++ [0]
  openOp := fun _ _ c => if c.isEmpty then none else some c.dropLast

/-- The demo AEAD satisfies the round-trip contract. -/
theorem demoAEAD_correct : AEADCorrect demoAEAD := by
  intro k n p
  simp [demoAEAD, AEADCorrect]

/-- The demo AEAD produces byte strings from byte strings. -/
theorem demoAEAD_bytes : AEADBytes demoAEAD := by
  intro k n p hp b hb
  simp only [demoAEAD, List.mem_append, List.mem_singleton] at hb
  rcases hb with hb | hb
  · exact hp b hb
  · omega

/-- A concrete encryptor: a single all-zero 32-byte key at version 1, which
is current. -/
def demoFE : FE where
  keys := fun v => if v = 1 then some (List.replicate 32 0) else none
  currentVersion := 1

/-! ## Claim theorems -/

/-- C8: the spec requires that repeated sequential `Stop()` calls after
termination neither panic nor deadlock.  `KeyManager.Stop`'s whole body is
`close(km.stopCh)`, and the Go language specification makes closing an
already-closed channel panic: the first `Stop()` closes the channel, the
second one panics (`none`).  This refutes the claim against the code. -/
theorem kmStop_second_call_panics :
    kmStop false = some true ∧ kmStop true = none := by decide

/-- Concrete buffered events for the flush and overflow runs. -/
def ev1 : BufEvent := ⟨"e1", 0, "p1"⟩

/-- Second concrete buffered event. -/
def ev2 : BufEvent := ⟨"e2", 0, "p2"⟩

/-- Third concrete buffered event. -/
def ev3 : BufEvent := ⟨"e3", 0, "p3"⟩

/-- Fourth concrete buffered event. -/
def ev4 : BufEvent := ⟨"e4", 0, "p4"⟩

/-- C2: the claim (and the source's own comments) say `Flush` removes exactly
the successfully delivered events and keeps each failed one with its retry
counter incremented.  The code instead (a) removes the first `flushed`
events of the snapshot — not the delivered ones — so when `e1` fails and `e2`
is delivered, the failed `e1` is dropped and the delivered `e2` is kept; and
(b) increments `Retries` only on the discarded snapshot copy, so a failed
event that does remain keeps its old counter.  Both runs below evaluate the
embedded `Flush` and refute the claim. -/
theorem bufFlush_removes_wrong_events :
    bufFlush [ev1, ev2] (fun e => e.id == "e2") = ([ev2], 1, true) ∧
    bufFlush [ev1] (fun _ => false) = ([ev1], 0, true) := by decide

/-- C4: the claim says `Decrypt` never panics, including on well-formed
envelopes whose nonce is not 12 bytes long.  But the code passes the decoded
attacker-controlled nonce straight to `gcm.Open`, which (per Go's
`crypto/cipher`) panics when the nonce length differs from `NonceSize()`:
the envelope `v1:AA==:AAAA` (a 1-byte nonce) parses and base64-decodes, and
then panics.  This refutes the claim against the code. -/
theorem feDecrypt_panics_on_short_nonce :
    feDecrypt demoAEAD demoFE ("v1:AA==:AAAA".toList) = .panicked := by decide

/-- C5 (amended): for a buffer at (or beyond) capacity, `Add` first consults
the injected persistence function on the entire current buffer contents
(every clause below conditions on `p events`, the function's verdict on the
full buffer, and the final clause shows `Add` depends on the persistence
function only through that one call).  When the capacity is positive,
successful persistence of the whole buffer clears it and leaves exactly the
new event, while a failed or absent persistence function leaves the contents
unchanged and returns `BufferFull`; the one correction is the degenerate
capacity-0 buffer, where even successful persistence is followed by the
still-at-capacity re-check, so `Add` returns `BufferFull` (with the buffer
cleared) instead of appending. -/
theorem bufAdd_at_capacity (events : List BufEvent) (maxSize : Nat)
    (event : BufEvent) (persist : Option (List BufEvent → Bool))
    (hfull : events.length ≥ maxSize) :
    (∀ p, persist = some p → p events = true → 1 ≤ maxSize →
      bufAdd events maxSize persist event = ([event], true)) ∧
    (∀ p, persist = some p → p events = true → maxSize = 0 →
      bufAdd events maxSize persist event = ([], false)) ∧
    (persist = none →
      bufAdd events maxSize persist event = (events, false)) ∧
    (∀ p, persist = some p → p events = false →
      bufAdd events maxSize persist event = (events, false)) ∧
    (∀ p q, p events = q events →
      bufAdd events maxSize (some p) event
        = bufAdd events maxSize (some q) event) := by
  refine ⟨?_, ?_, ?_, ?_, ?_⟩
  · intro p hp hres hcap
    subst hp
    simp [bufAdd, hfull, hres]
    omega
  · intro p hp hres hcap
    subst hp
    subst hcap
    simp [bufAdd, hfull, hres]
  · intro hp
    subst hp
    simp [bufAdd, hfull]
  · intro p hp hres
    subst hp
    simp [bufAdd, hfull, hres]
  · intro p q hpq
    simp [bufAdd, hfull, hpq]

/-- C5 witness: the spec's own overflow scenario at capacity 3 — a
persistence function that rejects the full buffer yields `BufferFull` with
the contents untouched, one that accepts it compacts the buffer to just the
new event. -/
theorem bufAdd_at_capacity_witness :
    bufAdd [ev1, ev2, ev3] 3 (some (fun _ => false)) ev4
        = ([ev1, ev2, ev3], false) ∧
    bufAdd [ev1, ev2, ev3] 3 (some (fun _ => true)) ev4 = ([ev4], true) := by
  constructor
  · exact (bufAdd_at_capacity [ev1, ev2, ev3] 3 ev4 (some (fun _ => false))
      (by decide)).2.2.2.1 (fun _ => false) rfl rfl
  · exact (bufAdd_at_capacity [ev1, ev2, ev3] 3 ev4 (some (fun _ => true))
      (by decide)).1 (fun _ => true) rfl rfl (by decide)

/-- C5 counterexample to the claim as stated: a capacity-0 buffer has reached
its capacity, and the persistence function accepts the (empty) buffer
contents, yet `Add` returns `BufferFull` and does not append the event — the
claim promised success with the buffer equal to `[event]`. -/
theorem bufAdd_zero_capacity_counterexample :
    bufAdd [] 0 (some (fun _ => true)) ev1 = ([], false) := by decide

/-- Rational-to-counting bridge for the trip threshold `0.5`: with a positive
request count, `failures/requests ≥ 1/2` is exactly `requests ≤ 2·failures`. -/
theorem half_ratio_iff (r f : Nat) (hr : 0 < r) :
    ((1 : ℚ) / 2 ≤ (f : ℚ) / (r : ℚ)) ↔ r ≤ 2 * f := by
  rw [div_le_div_iff (by norm_num) (by exact_mod_cast hr)]
  constructor
  · intro h
    have h2 : (r : ℚ) ≤ 2 * (f : ℚ) := by linarith
    exact_mod_cast h2
  · intro h
    have h2 : (r : ℚ) ≤ 2 * (f : ℚ) := by exact_mod_cast h
    linarith

/-- The `ReadyToTrip` closure at `MinRequests = 5`, `FailureRatio = 0.5`
fires exactly when the counts reach 5 requests with at least half failed. -/
theorem readyToTrip_iff (c : CBCounts) :
    readyToTrip 5 (1 / 2) c = true ↔
      5 ≤ c.requests ∧ c.requests ≤ 2 * c.totalFailures := by
  unfold readyToTrip
  by_cases h5 : c.requests < 5
  · simp only [if_pos h5, Bool.false_eq_true, false_iff]
    omega
  · rw [if_neg h5]
    simp only [decide_eq_true_eq, ge_iff_le]
    rw [half_ratio_iff c.requests c.totalFailures (by omega)]
    omega

/-- C6 (amended): with `MinRequests = 5` and `FailureRatio = 0.5`, a closed
breaker transitions to Open on an `Execute` call exactly when the wrapped
call fails and the updated rolling counts satisfy `requests ≥ 5` and
`failures/requests ≥ 0.5` — the correction to the claim is that the trip
condition is evaluated only after failed calls (gobreaker consults
`ReadyToTrip` in `onFailure` only).  While Open, every `Execute` returns the
`ErrCircuitOpen` translation of `gobreaker.ErrOpenState` and the wrapped
function is never invoked, so the outcome is independent of what the
function would have returned. -/
theorem cbExecute_trip_iff :
    (∀ (c : CBCounts) (fnFails : Bool),
      (cbExecute 5 (1 / 2) (.closed c) fnFails).1 = .opened ↔
        (fnFails = true ∧ 5 ≤ c.requests + 1 ∧
          c.requests + 1 ≤ 2 * (c.totalFailures + 1))) ∧
    (∀ fnFails : Bool,
      cbExecute 5 (1 / 2) .opened fnFails = (.opened, .circuitOpen)) := by
  constructor
  · intro c fnFails
    cases fnFails with
    | false => simp [cbExecute]
    | true =>
        by_cases hrt : readyToTrip 5 (1 / 2)
            ⟨c.requests + 1, c.totalFailures + 1⟩ = true
        · have h' := (readyToTrip_iff ⟨c.requests + 1, c.totalFailures + 1⟩).1 hrt
          have hr1 : 5 ≤ c.requests + 1 := h'.1
          have hr2 : c.requests + 1 ≤ 2 * (c.totalFailures + 1) := h'.2
          simp only [cbExecute]
          rw [if_pos hrt]
          simp
          omega
        · have h'1 : ¬(5 ≤ c.requests + 1 ∧
              c.requests + 1 ≤ 2 * (c.totalFailures + 1)) := fun hcon =>
            hrt ((readyToTrip_iff ⟨c.requests + 1, c.totalFailures + 1⟩).2 hcon)
          simp only [cbExecute]
          rw [if_neg hrt]
          simp
          omega
  · intro fnFails
    rfl

/-- C6 witness: from a closed breaker with 4 requests and 2 failures, a fifth
failing call satisfies the amended trip condition (5 ≥ 5, 3/5 ≥ 0.5) and the
breaker opens; an open breaker short-circuits with `ErrCircuitOpen`. -/
theorem cbExecute_trip_iff_witness :
    (cbExecute 5 (1 / 2) (.closed ⟨4, 2⟩) true).1 = .opened ∧
    cbExecute 5 (1 / 2) .opened false = (.opened, .circuitOpen) := by
  constructor
  · exact (cbExecute_trip_iff.1 ⟨4, 2⟩ true).2 ⟨rfl, by decide, by decide⟩
  · exact cbExecute_trip_iff.2 false

/-- C6 counterexample to the claim as stated: starting closed, issue five
calls of which the first three fail and the last two succeed.  The rolling
counts end at `requests = 5 ≥ 5` with `failures = 3`, so the failure ratio
`3/5 ≥ 0.5` — the claim's "trips exactly when" condition holds — yet the
breaker is still Closed, because the condition was never satisfied right
after a failed call. -/
theorem cbRun_condition_holds_but_closed :
    cbRun 5 (1 / 2) (.closed ⟨0, 0⟩) [true, true, true, false, false]
        = .closed ⟨5, 3⟩ ∧
      (5 : Nat) ≤ 5 ∧ ((1 : ℚ) / 2 ≤ (3 : ℚ) / (5 : ℚ)) := by
  refine ⟨by decide, by norm_num, by norm_num⟩

/-- C7 (amended): `NeedsReEncryption` is a total boolean function (no error,
no panic), and it returns `false` exactly when the envelope splits into three
colon parts, the first part is `v` followed by a version string that
`strconv.Atoi` parses — which requires a numeric value *within the 64-bit int
range*, the correction to the claim — and that version is not strictly older
than the current one; in every other situation (malformed input, unparseable
or out-of-range version, or an older version) it returns `true`.  In
particular an envelope carrying exactly the current version reports
`false`. -/
theorem feNeedsReEncryption_iff (e : FE) (s : List Char) :
    (feNeedsReEncryption e s = false ↔
      ∃ vs p1 p2 v, splitN3 s = [('v' :: vs), p1, p2] ∧
        goAtoi vs = some v ∧ e.currentVersion ≤ v) ∧
    (∀ vs p1 p2, splitN3 s = [('v' :: vs), p1, p2] →
      goAtoi vs = some e.currentVersion → feNeedsReEncryption e s = false) := by
  have backward : ∀ vs p1 p2 v, splitN3 s = [('v' :: vs), p1, p2] →
      goAtoi vs = some v → e.currentVersion ≤ v →
      feNeedsReEncryption e s = false := by
    intro vs p1 p2 v h3 hA hle
    unfold feNeedsReEncryption
    rw [h3]
    simp [hA]
    omega
  refine ⟨⟨?_, ?_⟩, ?_⟩
  · intro hfalse
    unfold feNeedsReEncryption at hfalse
    rcases h3 : splitN3 s with _ | ⟨p0, _ | ⟨p1, _ | ⟨p2, _ | ⟨p3, t⟩⟩⟩⟩ <;>
      rw [h3] at hfalse <;> simp at hfalse
    obtain ⟨hv, hm⟩ := hfalse
    rcases p0 with _ | ⟨c, vs⟩
    · simp at hv
    · obtain rfl : c = 'v' := by simpa using hv
      rw [List.tail_cons] at hm
      rcases hA : goAtoi vs with _ | v
      · rw [hA] at hm
        simp at hm
      · rw [hA] at hm
        simp only [decide_eq_false_iff_not, not_lt] at hm
        exact ⟨vs, p1, p2, v, rfl, hA, hm⟩
  · rintro ⟨vs, p1, p2, v, h3, hA, hle⟩
    exact backward vs p1 p2 v h3 hA hle
  · intro vs p1 p2 h3 hA
    exact backward vs p1 p2 e.currentVersion h3 hA le_rfl

/-- C7 witness: under `demoFE` (current version 1) the envelope
`v1:AAAA:AAAA` carries the current version and needs no re-encryption. -/
theorem feNeedsReEncryption_iff_witness :
    feNeedsReEncryption demoFE ("v1:AAAA:AAAA".toList) = false :=
  (feNeedsReEncryption_iff demoFE ("v1:AAAA:AAAA".toList)).2
    ("1".toList) ("AAAA".toList) ("AAAA".toList) (by decide) (by decide)

/-- C7 counterexample to the claim as stated: the envelope with version
`99999999999999999999` splits into three parts, has the `v` prefix and a
perfectly numeric version whose value is not older than the current
version 1 — by the claim it should report `false` — yet the function returns
`true`, because `strconv.Atoi` fails with a range error beyond the 64-bit
int range and the code treats that as malformed. -/
theorem feNeedsReEncryption_range_counterexample :
    feNeedsReEncryption demoFE ("v99999999999999999999:AAAA:AAAA".toList)
        = true ∧
      splitN3 ("v99999999999999999999:AAAA:AAAA".toList) =
        [('v' :: "99999999999999999999".toList), "AAAA".toList,
          "AAAA".toList] ∧
      parseDigits ("99999999999999999999".toList)
        = some 99999999999999999999 ∧
      ¬((99999999999999999999 : Int) < demoFE.currentVersion) := by
  refine ⟨by decide, by decide, by decide, by decide⟩

/-- Base64 encoding of the all-zero 32-byte key, used as concrete rotation
material. -/
def zeroKeyB64 : List Char := encodeB64 (List.replicate 32 0)

/-- C9: on an initialized KeyManager with current version `N`, a successful
`RotateKey(k)` stores the decoded 32-byte key at version `N+1` (leaving every
other version's entry unchanged, as the explicit function update shows) and
makes `N+1` current; if `k` is not valid base64 or does not decode to exactly
32 bytes, `RotateKey` reports the error and the returned state is the
original one — key map and current version unchanged. -/
theorem kmRotateKey_spec (e : FE) (kB64 : List Char) :
    (∀ key, goB64Decode kB64 = some key → key.length = 32 →
      kmRotateKey e kB64 =
        ({ keys := fun v => if v = e.currentVersion + 1 then some key
              else e.keys v,
           currentVersion := e.currentVersion + 1 }, true)) ∧
    (goB64Decode kB64 = none → kmRotateKey e kB64 = (e, false)) ∧
    (∀ key, goB64Decode kB64 = some key → key.length ≠ 32 →
      kmRotateKey e kB64 = (e, false)) := by
  refine ⟨?_, ?_, ?_⟩
  · intro key hdec hlen
    unfold kmRotateKey feAddKey feSetCurrentVersion
    rw [hdec]
    simp only [hlen]
    simp
  · intro hdec
    unfold kmRotateKey feAddKey
    rw [hdec]
    simp
  · intro key hdec hlen
    unfold kmRotateKey feAddKey
    rw [hdec]
    simp [hlen]

/-- C9 witness: rotating `demoFE` (current version 1) with the 32-byte
all-zero key succeeds, stores it at version 2 and makes 2 current; rotating
with a non-base64 string fails and leaves the state untouched. -/
theorem kmRotateKey_spec_witness :
    (kmRotateKey demoFE zeroKeyB64).2 = true ∧
    (kmRotateKey demoFE zeroKeyB64).1.currentVersion = 2 ∧
    (kmRotateKey demoFE zeroKeyB64).1.keys 2 = some (List.replicate 32 0) ∧
    kmRotateKey demoFE ("not base64!".toList) = (demoFE, false) := by
  have h := (kmRotateKey_spec demoFE zeroKeyB64).1 (List.replicate 32 0)
    (by decide) (by decide)
  refine ⟨by rw [h], by rw [h]; rfl, by rw [h]; simp [demoFE], ?_⟩
  exact (kmRotateKey_spec demoFE ("not base64!".toList)).2.1 (by decide)

/-- Every key accepted by `NewFieldEncryptor`'s decode loop is 32 bytes. -/
theorem decodeKeys_lengths : ∀ (l : List (List Char)) (ks : List (List Nat)),
    decodeKeys l = some ks → ∀ key ∈ ks, key.length = 32
  | [], ks => by
      intro h
      simp only [decodeKeys, Option.some.injEq] at h
      subst h
      simp
  | k :: rest, ks => by
      intro h key hk
      simp only [decodeKeys] at h
      split at h
      · exact absurd h (by simp)
      · split at h
        · exact absurd h (by simp)
        · next kk hlen =>
            rcases hr : decodeKeys rest with _ | ks' <;> rw [hr] at h
            · exact absurd h (by simp)
            · simp at h
              subst h
              rcases List.mem_cons.mp hk with hkk | hkk
              · subst hkk
                omega
              · exact decodeKeys_lengths rest ks' hr key hkk

/-- A key found in the 1-indexed version map is one of the decoded keys. -/
theorem keysOfList_mem (ks : List (List Nat)) (v : Int) (k : List Nat)
    (h : keysOfList ks v = some k) : k ∈ ks := by
  unfold keysOfList at h
  by_cases hc : 1 ≤ v ∧ v ≤ ks.length
  · rw [if_pos hc] at h
    exact List.getElem?_mem h
  · rw [if_neg hc] at h
    exact absurd h (by simp)

/-- The validity invariant of a field encryptor: the current version has a
key, and every stored key is 32 bytes (so the current key is a valid AES-256
key and the key map is non-empty). -/
def ValidFE (e : FE) : Prop :=
  (∃ k, e.keys e.currentVersion = some k) ∧
  (∀ v k, e.keys v = some k → k.length = 32)

/-- A freshly constructed `FieldEncryptor` is valid. -/
theorem validFE_new (ksB64 : List (List Char)) (cur : Int) (e0 : FE)
    (hnew : newFieldEncryptor ksB64 cur = some e0) : ValidFE e0 := by
  unfold newFieldEncryptor at hnew
  split at hnew
  · exact absurd hnew (by simp)
  · split at hnew
    · exact absurd hnew (by simp)
    · next ks hd =>
        split at hnew
        · exact absurd hnew (by simp)
        · next k0 hk =>
            simp only [Option.some.injEq] at hnew
            subst hnew
            refine ⟨⟨k0, hk⟩, ?_⟩
            intro v kk hkk
            exact decodeKeys_lengths ksB64 ks hd kk (keysOfList_mem ks v kk hkk)

/-- `AddKey` preserves validity (it only ever stores 32-byte keys and leaves
the current version alone). -/
theorem validFE_addKey (e : FE) (v : Int) (k : List Char) (h : ValidFE e) :
    ValidFE (feAddKey e v k).1 := by
  obtain ⟨⟨k0, hk0⟩, hall⟩ := h
  unfold feAddKey
  split
  · exact ⟨⟨k0, hk0⟩, hall⟩
  · next key heq =>
      split
      · exact ⟨⟨k0, hk0⟩, hall⟩
      · next hlen =>
          refine ⟨?_, ?_⟩
          · by_cases hcur : e.currentVersion = v
            · refine ⟨key, ?_⟩
              show (if e.currentVersion = v then some key
                  else e.keys e.currentVersion) = some key
              rw [if_pos hcur]
            · refine ⟨k0, ?_⟩
              show (if e.currentVersion = v then some key
                  else e.keys e.currentVersion) = some k0
              rw [if_neg hcur]
              exact hk0
          · intro w kk hkk
            have hkk2 : (if w = v then some key else e.keys w) = some kk := hkk
            by_cases hw : w = v
            · rw [if_pos hw] at hkk2
              obtain rfl : key = kk := by simpa using hkk2
              omega
            · rw [if_neg hw] at hkk2
              exact hall w kk hkk2

/-- `SetCurrentVersion` preserves validity (it only promotes a version that
has a key). -/
theorem validFE_setCur (e : FE) (v : Int) (h : ValidFE e) :
    ValidFE (feSetCurrentVersion e v).1 := by
  unfold feSetCurrentVersion
  rcases hk : e.keys v with _ | k0
  · exact h
  · exact ⟨⟨k0, hk⟩, h.2⟩

/-- `RotateKey` preserves validity: it is `AddKey` at `current+1` followed by
`SetCurrentVersion` there, with early return on failure. -/
theorem validFE_rotate (e : FE) (k : List Char) (h : ValidFE e) :
    ValidFE (kmRotateKey e k).1 := by
  rcases hA : feAddKey e (e.currentVersion + 1) k with ⟨e1, ok1⟩
  have h1 : ValidFE e1 := by
    have hh := validFE_addKey e (e.currentVersion + 1) k h
    rwa [hA] at hh
  rcases hS : feSetCurrentVersion e1 (e.currentVersion + 1) with ⟨e2, ok2⟩
  have h2 : ValidFE e2 := by
    have hh := validFE_setCur e1 (e.currentVersion + 1) h1
    rwa [hS] at hh
  simp only [kmRotateKey, hA]
  cases ok1 with
  | false => simpa using h1
  | true =>
      simp only [hS]
      cases ok2 with
      | false => simpa using h2
      | true => simpa using h2

/-- The key-lifecycle operations of the encryptor and key manager. -/
inductive FEOp where
  | addK (version : Int) (keyBase64 : List Char)
  | setCur (version : Int)
  | rotate (keyBase64 : List Char)

/-- Apply one lifecycle operation, keeping the post-state (as the Go
mutation does, whether or not the call reported an error). -/
def applyFEOp (e : FE) : FEOp → FE
  | .addK v k => (feAddKey e v k).1
  | .setCur v => (feSetCurrentVersion e v).1
  | .rotate k => (kmRotateKey e k).1

/-- Validity is preserved by every sequence of lifecycle operations. -/
theorem validFE_ops (e : FE) (h : ValidFE e) :
    ∀ ops : List FEOp, ValidFE (ops.foldl applyFEOp e)
  | [] => h
  | op :: rest => by
      have h1 : ValidFE (applyFEOp e op) := by
        cases op with
        | addK v k => exact validFE_addKey e v k h
        | setCur v => exact validFE_setCur e v h
        | rotate k => exact validFE_rotate e k h
      simpa using validFE_ops (applyFEOp e op) h1 rest

/-- With the current key present and of an accepted AES length, `Encrypt`
produces exactly the `v{version}:{nonce}:{ciphertext}` envelope. -/
theorem feEncrypt_some (a : AEAD) (e : FE) (key : List Nat)
    (hkey : e.keys e.currentVersion = some key) (hOK : aesKeyLenOK key = true)
    (nonce pt : List Nat) :
    feEncrypt a e nonce pt = some ('v' :: (goItoa e.currentVersion ++
      (':' :: (encodeB64 nonce ++
        (':' :: encodeB64 (a.sealOp key nonce pt)))))) := by
  unfold feEncrypt
  rw [hkey]
  show (if aesKeyLenOK key = true then
      some ('v' :: (goItoa e.currentVersion ++
        (':' :: (encodeB64 nonce ++
          (':' :: encodeB64 (a.sealOp key nonce pt)))))) else none) = _
  rw [if_pos hOK]

/-- C10: every `FieldEncryptor` produced by `NewFieldEncryptor`, after any
sequence of `AddKey`, `SetCurrentVersion` and `KeyManager.RotateKey`
operations, has a 32-byte key stored at its current version (hence a
non-empty key map), so `Encrypt`'s unchecked lookup of the current key always
finds a valid AES-256 key and `Encrypt` never fails for lack of a current
key. -/
theorem encryptor_current_key_invariant (ksB64 : List (List Char)) (cur : Int)
    (e0 : FE) (hnew : newFieldEncryptor ksB64 cur = some e0)
    (ops : List FEOp) (e : FE) (he : e = ops.foldl applyFEOp e0) :
    (∃ key, e.keys e.currentVersion = some key ∧ key.length = 32) ∧
    (∀ (a : AEAD) (nonce pt : List Nat),
      ∃ s, feEncrypt a e nonce pt = some s) := by
  have h0 : ValidFE e0 := validFE_new ksB64 cur e0 hnew
  have hv : ValidFE e := by
    rw [he]
    exact validFE_ops e0 h0 ops
  obtain ⟨⟨key, hkey⟩, hall⟩ := hv
  have hlen := hall _ _ hkey
  have hOK : aesKeyLenOK key = true := by simp [aesKeyLenOK, hlen]
  exact ⟨⟨key, hkey, hlen⟩,
    fun a nonce pt => ⟨_, feEncrypt_some a e key hkey hOK nonce pt⟩⟩

/-- C10 witness: start from the encryptor built on one all-zero 32-byte key
with current version 1 and rotate once; the resulting state still has a
32-byte key stored at its current version. -/
theorem encryptor_current_key_invariant_witness :
    ∃ key, (([FEOp.rotate zeroKeyB64].foldl applyFEOp
          ⟨keysOfList [List.replicate 32 0], 1⟩).keys
        ([FEOp.rotate zeroKeyB64].foldl applyFEOp
          ⟨keysOfList [List.replicate 32 0], 1⟩).currentVersion)
        = some key ∧ key.length = 32 :=
  (encryptor_current_key_invariant [zeroKeyB64] 1
    ⟨keysOfList [List.replicate 32 0], 1⟩ (by rfl)
    [FEOp.rotate zeroKeyB64]
    ([FEOp.rotate zeroKeyB64].foldl applyFEOp
      ⟨keysOfList [List.replicate 32 0], 1⟩) rfl).1

/-- `Decrypt` on an input that splits into exactly three parts, reduced to
the envelope pipeline on those parts. -/
theorem feDecrypt_three (a : AEAD) (e : FE) (s p0 p1 p2 : List Char)
    (h3 : splitN3 s = [p0, p1, p2]) :
    feDecrypt a e s =
      if p0.head? = some 'v' then
        match goAtoi (p0.drop 1) with
        | none => .err .invalidCiphertext
        | some version =>
            match goB64Decode p1 with
            | none => .err .invalidCiphertext
            | some nonce =>
                match goB64Decode p2 with
                | none => .err .invalidCiphertext
                | some ciphertext =>
                    match e.keys version with
                    | none => .err .keyNotFound
                    | some key =>
                        if aesKeyLenOK key then
                          if nonce.length = gcmNonceSize then
                            match a.openOp key nonce ciphertext with
                            | some plaintext => .ok plaintext version
                            | none => .err .decryptionFailed
                          else .panicked
                        else .err .decryptionFailed
      else .err .invalidCiphertext := by
  unfold feDecrypt
  rw [h3]

/-- C3: `Decrypt`'s error taxonomy, exactly as the code orders its checks —
any input without three colon parts, without the `v` prefix, with an
unparseable version, or with invalid base64 in the nonce or ciphertext part
fails with `ErrInvalidCiphertext`; a well-formed envelope whose version has
no key fails with `ErrKeyNotFound`; a well-formed envelope whose GCM
authentication check rejects fails with `ErrDecryptionFailed`; and the three
error kinds are pairwise distinct. -/
theorem feDecrypt_error_kinds (a : AEAD) (e : FE) :
    (∀ s, (splitN3 s).length ≠ 3 →
      feDecrypt a e s = .err .invalidCiphertext) ∧
    (∀ s p0 p1 p2, splitN3 s = [p0, p1, p2] → ¬p0.head? = some 'v' →
      feDecrypt a e s = .err .invalidCiphertext) ∧
    (∀ s p0 p1 p2, splitN3 s = [p0, p1, p2] → p0.head? = some 'v' →
      goAtoi (p0.drop 1) = none →
      feDecrypt a e s = .err .invalidCiphertext) ∧
    (∀ s p0 p1 p2 v, splitN3 s = [p0, p1, p2] → p0.head? = some 'v' →
      goAtoi (p0.drop 1) = some v → goB64Decode p1 = none →
      feDecrypt a e s = .err .invalidCiphertext) ∧
    (∀ s p0 p1 p2 v nonce, splitN3 s = [p0, p1, p2] → p0.head? = some 'v' →
      goAtoi (p0.drop 1) = some v → goB64Decode p1 = some nonce →
      goB64Decode p2 = none → feDecrypt a e s = .err .invalidCiphertext) ∧
    (∀ s p0 p1 p2 v nonce ct, splitN3 s = [p0, p1, p2] →
      p0.head? = some 'v' → goAtoi (p0.drop 1) = some v →
      goB64Decode p1 = some nonce → goB64Decode p2 = some ct →
      e.keys v = none → feDecrypt a e s = .err .keyNotFound) ∧
    (∀ s p0 p1 p2 v nonce ct key, splitN3 s = [p0, p1, p2] →
      p0.head? = some 'v' → goAtoi (p0.drop 1) = some v →
      goB64Decode p1 = some nonce → goB64Decode p2 = some ct →
      e.keys v = some key → key.length = 32 → nonce.length = 12 →
      a.openOp key nonce ct = none →
      feDecrypt a e s = .err .decryptionFailed) ∧
    (DecErr.invalidCiphertext ≠ DecErr.keyNotFound ∧
      DecErr.invalidCiphertext ≠ DecErr.decryptionFailed ∧
      DecErr.keyNotFound ≠ DecErr.decryptionFailed) := by
  refine ⟨?_, ?_, ?_, ?_, ?_, ?_, ?_, by decide⟩
  · intro s hlen
    rcases h3 : splitN3 s with _ | ⟨p0, _ | ⟨p1, _ | ⟨p2, _ | ⟨p3, t⟩⟩⟩⟩
    · unfold feDecrypt
      rw [h3]
    · unfold feDecrypt
      rw [h3]
    · unfold feDecrypt
      rw [h3]
    · exact absurd (show (splitN3 s).length = 3 by rw [h3]; rfl) hlen
    · unfold feDecrypt
      rw [h3]
  · intro s p0 p1 p2 h3 hv
    rw [feDecrypt_three a e s p0 p1 p2 h3, if_neg hv]
  · intro s p0 p1 p2 h3 hv hA
    rw [feDecrypt_three a e s p0 p1 p2 h3, if_pos hv, hA]
  · intro s p0 p1 p2 v h3 hv hA hn1
    rw [feDecrypt_three a e s p0 p1 p2 h3, if_pos hv]
    have hA2 : goAtoi p0.tail = some v := by rw [← List.drop_one]; exact hA
    simp [hA2, hn1]
  · intro s p0 p1 p2 v nonce h3 hv hA hn1 hn2
    rw [feDecrypt_three a e s p0 p1 p2 h3, if_pos hv]
    have hA2 : goAtoi p0.tail = some v := by rw [← List.drop_one]; exact hA
    simp [hA2, hn1, hn2]
  · intro s p0 p1 p2 v nonce ct h3 hv hA hn1 hn2 hkeys
    rw [feDecrypt_three a e s p0 p1 p2 h3, if_pos hv]
    have hA2 : goAtoi p0.tail = some v := by rw [← List.drop_one]; exact hA
    simp [hA2, hn1, hn2, hkeys]
  · intro s p0 p1 p2 v nonce ct key h3 hv hA hn1 hn2 hkeys hklen hnlen hopen
    rw [feDecrypt_three a e s p0 p1 p2 h3, if_pos hv]
    have hA2 : goAtoi p0.tail = some v := by rw [← List.drop_one]; exact hA
    have hOK : aesKeyLenOK key = true := by simp [aesKeyLenOK, hklen]
    simp [hA2, hn1, hn2, hkeys, hOK, gcmNonceSize, hnlen, hopen]

/-- C3 witness: the spec's own bad inputs each land on the right error kind
under the concrete encryptor (key version 1 only): empty input, a single
token, a missing `v` prefix, a non-numeric version, an unknown version
(well-formed base64), and a GCM authentication failure. -/
theorem feDecrypt_error_kinds_witness :
    feDecrypt demoAEAD demoFE ("".toList) = .err .invalidCiphertext ∧
    feDecrypt demoAEAD demoFE ("invalid".toList) = .err .invalidCiphertext ∧
    feDecrypt demoAEAD demoFE ("1:abc:def".toList)
        = .err .invalidCiphertext ∧
    feDecrypt demoAEAD demoFE ("vX:abc:def".toList)
        = .err .invalidCiphertext ∧
    feDecrypt demoAEAD demoFE ("v999:AAAAAAAAAAAAAAAA:AAAA".toList)
        = .err .keyNotFound ∧
    feDecrypt demoAEAD demoFE ("v1:AAAAAAAAAAAAAAAA:".toList)
        = .err .decryptionFailed := by
  obtain ⟨h1, h2, h3, -, -, h6, h7, -⟩ := feDecrypt_error_kinds demoAEAD demoFE
  refine ⟨?_, ?_, ?_, ?_, ?_, ?_⟩
  · exact h1 _ (by decide)
  · exact h1 _ (by decide)
  · exact h2 _ ("1".toList) ("abc".toList) ("def".toList) (by decide)
      (by decide)
  · exact h3 _ ("vX".toList) ("abc".toList) ("def".toList) (by decide)
      (by decide) (by decide)
  · exact h6 _ ("v999".toList) ("AAAAAAAAAAAAAAAA".toList) ("AAAA".toList)
      999 (List.replicate 12 0) [0, 0, 0] (by decide) (by decide) (by decide)
      (by decide) (by decide) (by decide)
  · exact h7 _ ("v1".toList) ("AAAAAAAAAAAAAAAA".toList) ("".toList) 1
      (List.replicate 12 0) [] (List.replicate 32 0) (by decide) (by decide)
      (by decide) (by decide) (by decide) (by decide) (by decide) (by decide)
      (by decide)

/-- C1: for every plaintext byte string (including the empty one) and every
valid `FieldEncryptor` state — a 32-byte key stored at the current version,
whose value as a Go `int` lies in the 64-bit range — encrypting under the
freshly drawn 12-byte nonce and then decrypting the produced envelope
succeeds and returns the original plaintext together with the current key
version.  The AEAD is any cipher satisfying the contract Go's GCM documents
(`Open` inverts `Seal`, bytes in give bytes out). -/
theorem encrypt_decrypt_roundtrip (a : AEAD) (hC : AEADCorrect a)
    (hB : AEADBytes a) (e : FE) (key : List Nat)
    (hkey : e.keys e.currentVersion = some key) (hklen : key.length = 32)
    (hvlo : -(2 ^ 63) ≤ e.currentVersion) (hvhi : e.currentVersion < 2 ^ 63)
    (nonce : List Nat) (hnlen : nonce.length = 12)
    (hnB : ∀ b ∈ nonce, b < 256)
    (pt : List Nat) (hptB : ∀ b ∈ pt, b < 256) :
    ∃ s, feEncrypt a e nonce pt = some s ∧
      feDecrypt a e s = .ok pt e.currentVersion := by
  have hOK : aesKeyLenOK key = true := by simp [aesKeyLenOK, hklen]
  have hctB : ∀ b ∈ a.sealOp key nonce pt, b < 256 := hB key nonce pt hptB
  refine ⟨_, feEncrypt_some a e key hkey hOK nonce pt, ?_⟩
  have h1 : ':' ∉ ('v' :: goItoa e.currentVersion) := by
    intro hmem
    rcases List.mem_cons.mp hmem with hx | hx
    · exact absurd hx (by decide)
    · exact goItoa_no_colon e.currentVersion hx
  have h2 : ':' ∉ encodeB64 nonce := fun hm =>
    (encodeB64_no_colon_crlf nonce hnB ':' hm).1 rfl
  have hsplit : splitN3 ('v' :: (goItoa e.currentVersion ++
      (':' :: (encodeB64 nonce ++ (':' :: encodeB64 (a.sealOp key nonce pt))))))
      = [('v' :: goItoa e.currentVersion), encodeB64 nonce,
         encodeB64 (a.sealOp key nonce pt)] := by
    have hp := splitN3_parts ('v' :: goItoa e.currentVersion)
      (encodeB64 nonce) (encodeB64 (a.sealOp key nonce pt)) h1 h2
    simpa [List.cons_append] using hp
  rw [feDecrypt_three a e _ _ _ _ hsplit]
  have hv : (('v' :: goItoa e.currentVersion) : List Char).head? = some 'v' :=
    rfl
  rw [if_pos hv]
  have hA2 : goAtoi (goItoa e.currentVersion) = some e.currentVersion :=
    goAtoi_goItoa e.currentVersion hvlo hvhi
  simp [hA2, goB64Decode_encodeB64 nonce hnB,
    goB64Decode_encodeB64 (a.sealOp key nonce pt) hctB, hkey, hOK,
    gcmNonceSize, hnlen, hC key nonce pt]

/-- C1 witness: under the demo AEAD and the demo single-key encryptor, the
plaintext `[1, 2, 3]` encrypted with an all-zero 12-byte nonce decrypts back
to `[1, 2, 3]` at key version 1. -/
theorem encrypt_decrypt_roundtrip_witness :
    ∃ s, feEncrypt demoAEAD demoFE (List.replicate 12 0) [1, 2, 3] = some s ∧
      feDecrypt demoAEAD demoFE s = .ok [1, 2, 3] demoFE.currentVersion :=
  encrypt_decrypt_roundtrip demoAEAD demoAEAD_correct demoAEAD_bytes demoFE
    (List.replicate 32 0) (by decide) (by decide) (by decide) (by decide)
    (List.replicate 12 0) (by decide) (by decide) [1, 2, 3] (by decide)
